import Mathlib

/-!
Verification of the note-path resolution core of the trilium client
(`src/public/javascripts/services/tab_context.js`, tree service part).

JavaScript strings are embedded as `List Char` (`Str`); the string
operations the source uses (`split` on a one-character separator, `trim`,
`join`, `includes`) are defined structurally below so that every concrete
computation reduces in the kernel.
-/

namespace Trilium

/-- JavaScript strings, embedded as lists of characters. -/
abbrev Str := List Char

/-- Literal helper: a Lean string literal viewed as a `Str`. -/
def lit (s : String) : Str := s.toList

/-- The root sentinel identifier `"root"`. -/
def rootId : Str := lit "root"

/-- The path separator `'/'`. -/
def slash : Char := '/'

/-- The tab-suffix separator `'-'`. -/
def dash : Char := '-'

/-- JS `s.split(sep)` for a one-character separator: splits `s` at every
occurrence of `sep`; the result is always nonempty, and empty fields are
kept (`"a//b".split("/") = ["a","","b"]`, `"".split("/") = [""]`). -/
def splitChar (sep : Char) : Str → List Str
  | [] => [[]]
  | c :: rest =>
    match splitChar sep rest with
    | [] => if c = sep then [[], []] else [[c]]
    | r :: rs => if c = sep then [] :: r :: rs else (c :: r) :: rs

/-- Whitespace characters removed by JS `trim`. -/
def isWs (c : Char) : Bool := c = ' ' ∨ c = '\t' ∨ c = '\n' ∨ c = '\r'

/-- JS `s.trim()`: drop whitespace from both ends. -/
def trimChars (s : Str) : Str :=
  ((s.dropWhile isWs).reverse.dropWhile isWs).reverse

/-- JS `array.join(sep)` for a one-character separator. -/
def joinChar (sep : Char) : List Str → Str
  | [] => []
  | [l] => l
  | l :: ls => l ++ sep :: joinChar sep ls

/-- A note snapshot as the resolution code sees it: identifier and title.
Modelled from the spec: `tree_cache.js` (GraphCache) is not part of the
sample; §3 gives a Note an identifier and a title (flags are irrelevant to
the excerpted resolution code). -/
structure Note where
  noteId : Str
  title : Str
deriving DecidableEq, Repr

/-- A branch: the sole representation of a parent→child edge (§3).
Modelled from the spec: the branch entities live in the missing
`tree_cache.js`; ordering of branches in the cache list stands for the
ordering key (`parents[0]` = first available parent). -/
structure Branch where
  parentNoteId : Str
  childNoteId : Str
deriving DecidableEq, Repr

/-- The in-memory graph cache (GraphCache, `treeCache` in the source).
Modelled from the spec: `tree_cache.js` is not in the sample; §4.1 makes it
a keyed store of note and branch snapshots. -/
structure TreeCache where
  notes : List Note
  branches : List Branch
deriving DecidableEq, Repr

/-- Embedding of `treeCache.getNote(id)`, restricted to cached state.
Modelled from the spec: §4.1 `getNote` returns the cached Note and fails
with `NotFound` when the server does not know the id; a `none` result
stands for the `!child` branch of the resolution loop. -/
def getNote (c : TreeCache) (id : Str) : Option Note :=
  c.notes.find? (fun n => n.noteId = id)

/-- Embedding of `note.getParentNotes()`: the parent notes of `n`, one per cached branch
whose `childNoteId` is `n`, in branch order.
Modelled from the spec: §4.1 `getParentBranches(childId)` returns the
branches with `childNoteId == childId` from cached state only; the note
side resolves each `parentNoteId` against the cache. -/
def getParentNotes (c : TreeCache) (n : Note) : List Note :=
  (c.branches.filter (fun b => b.childNoteId = n.noteId)).filterMap
    (fun b => getNote c b.parentNoteId)

/-- Removing the branch `parent→child` from the cache. -/
def deleteBranch (c : TreeCache) (p ch : Str) : TreeCache :=
  { c with branches :=
      c.branches.filter (fun b => ¬(b.parentNoteId = p ∧ b.childNoteId = ch)) }

/-- Adding a branch to the cache (appended, i.e. highest ordering key). -/
def addBranch (c : TreeCache) (b : Branch) : TreeCache :=
  { c with branches := c.branches ++ [b] }

/-- The loop of `getSomeNotePath`: walk first parents from `cur` up to
root, accumulating note ids in visit order.  The source loop has no
termination guard, so it is embedded with explicit fuel: `none` means the
loop is still running after `fuel` iterations, `some none` is the
`return;` on a parentless note, `some (some l)` the accumulated ids with
root last. -/
def someNotePathAux (c : TreeCache) : Note → List Str → Nat → Option (Option (List Str))
  | _, _, 0 => none
  | cur, acc, fuel + 1 =>
    if cur.noteId = rootId then some (some (acc ++ [rootId]))
    else
      match getParentNotes c cur with
      | [] => some none
      | p :: _ => someNotePathAux c p (acc ++ [cur.noteId]) fuel

/-- Embedding of `getSomeNotePath(note)` from the source: first-parent walk to root,
reversed and joined with `/`.  `some none` is the source's `undefined`
(parentless note hit); `none` means the unguarded loop has not terminated
within `fuel` iterations. -/
def getSomeNotePath (c : TreeCache) (note : Note) (fuel : Nat) : Option (Option Str) :=
  (someNotePathAux c note [] fuel).map (fun r => r.map (fun l => joinChar slash l.reverse))

/-- The `while (true)` loop of `resolveNotePathToSegments`: `rest` is the
unprocessed tail of the reversed path, `childNoteId` the last accepted
segment, `effectivePath` the accepted segments in child-to-root order.
`some none` is the source's `return;` (bare failure), `none` fuel
exhaustion inside the repair fallback. -/
def resolveLoop (c : TreeCache) : List Str → Option Str → List Str → Nat →
    Option (Option (List Str))
  | [], _, effectivePath, _ => some (some effectivePath.reverse)
  | parentNoteId :: rest, childNoteId, effectivePath, fuel =>
    match childNoteId with
    | none => resolveLoop c rest (some parentNoteId) (effectivePath ++ [parentNoteId]) fuel
    | some childId =>
      match getNote c childId with
      | none => some none
      | some child =>
        match getParentNotes c child with
        | [] => some none
        | p :: ps =>
          if (p :: ps).any (fun q => q.noteId = parentNoteId) then
            resolveLoop c rest (some parentNoteId) (effectivePath ++ [parentNoteId]) fuel
          else
            match getSomeNotePath c p fuel with
            | none => none
            | some none => some (some effectivePath.reverse)
            | some (some someNotePath) =>
              some (some ((effectivePath ++ (splitChar slash someNotePath).reverse).reverse))

/-- Step 1 of `resolveNotePathToSegments`: `notePath.split("-")[0].trim()`. -/
def cleanPath (notePath : Str) : Str :=
  trimChars ((splitChar dash notePath).headD [])

/-- Embedding of `resolveNotePathToSegments` on an already cleaned path: split on `/`,
reverse, append root if absent, run the walk. -/
def resolveCleaned (c : TreeCache) (cleaned : Str) (fuel : Nat) :
    Option (Option (List Str)) :=
  if cleaned.length = 0 then some none
  else
    resolveLoop c
      (if rootId ∈ (splitChar slash cleaned).reverse
        then (splitChar slash cleaned).reverse
        else (splitChar slash cleaned).reverse ++ [rootId])
      none [] fuel

/-- Embedding of `resolveNotePathToSegments(notePath)` from the source.  `some none` is
the source's `undefined` result (logged failure), `some (some l)` the
returned segment list, `none` non-termination of the repair fallback
within `fuel` iterations. -/
def resolveNotePathToSegments (c : TreeCache) (notePath : Str) (fuel : Nat) :
    Option (Option (List Str)) :=
  resolveCleaned c (cleanPath notePath) fuel

/-- Embedding of `resolveNotePath(notePath)`: joins the segments with `/`, `some none`
is the source's `null`. -/
def resolveNotePath (c : TreeCache) (notePath : Str) (fuel : Nat) :
    Option (Option Str) :=
  (resolveNotePathToSegments c notePath fuel).map (fun r => r.map (joinChar slash))

/-- Result record of `getNoteIdAndParentIdFromNotePath`. -/
structure NoteIdParentId where
  noteId : Str
  parentNoteId : Str
deriving DecidableEq, Repr

/-- Embedding of `getNoteIdAndParentIdFromNotePath(notePath)` from the source:
special-cases `"root"`, defaults `parentNoteId` to `"root"`, and strips the
tab suffix from the last segment; the falsy (`""`) input keeps the defaults
`noteId = ""`, `parentNoteId = "root"`. -/
def getNoteIdAndParentIdFromNotePath (notePath : Str) : NoteIdParentId :=
  if notePath = rootId then { noteId := rootId, parentNoteId := lit "none" }
  else if notePath = [] then { noteId := [], parentNoteId := rootId }
  else
    let path := splitChar slash notePath
    let lastSegment := path.getLastD []
    let noteId := (splitChar dash lastSegment).headD []
    let parentNoteId := if path.length > 1 then path.getD (path.length - 2) [] else rootId
    { noteId := noteId, parentNoteId := parentNoteId }

/-- Calls the resolution core makes on external collaborators when handling
a pushed message (the navigation sink of §6 and the Electron window). -/
inductive NavAction where
  | activateOrOpenNote (noteId : Str)
  | showCurrentWindow
deriving DecidableEq, Repr

/-- One pushed notification as seen by the `ws.subscribeToMessages` handler. -/
structure WsMessage where
  type : Str
  noteId : Str
deriving DecidableEq, Repr

/-- Embedding of the `ws.subscribeToMessages` handler of the source: an
`open-note` message triggers the navigation collaborator (and, under
Electron, shows the window) and leaves the tree cache untouched; the
handler does nothing else.  The returned pair is the (unchanged) cache and
the list of collaborator calls made. -/
def handleWsMessage (electron : Bool) (m : WsMessage) (c : TreeCache) :
    TreeCache × List NavAction :=
  if m.type = lit "open-note" then
    (c, NavAction.activateOrOpenNote m.noteId ::
        (if electron then [NavAction.showCurrentWindow] else []))
  else
    (c, [])

/-- A valid existing branch edge `parent → child` in the cache, as the
acceptance test of the resolution walk sees it: both endpoints are cached
notes and a cached branch links them. -/
def validEdge (c : TreeCache) (p ch : Str) : Prop :=
  (∃ n ∈ c.notes, n.noteId = ch) ∧ (∃ n ∈ c.notes, n.noteId = p) ∧
    (∃ b ∈ c.branches, b.parentNoteId = p ∧ b.childNoteId = ch)

instance validEdgeDecidable (c : TreeCache) (p ch : Str) : Decidable (validEdge c p ch) :=
  inferInstanceAs (Decidable (_ ∧ _ ∧ _))

/-- The root note used by the concrete scenarios. -/
def nR : Note := { noteId := rootId, title := rootId }

/-- Note `A` of the concrete scenarios. -/
def nA : Note := { noteId := lit "A", title := lit "A" }

/-- Note `B` of the concrete scenarios. -/
def nB : Note := { noteId := lit "B", title := lit "B" }

/-- Note `C` of the concrete scenarios. -/
def nC : Note := { noteId := lit "C", title := lit "C" }

/-- Cache of the repair scenario before the move: branches root→A, A→B. -/
def cache0 : TreeCache :=
  { notes := [nR, nA, nB, nC],
    branches := [{ parentNoteId := rootId, childNoteId := lit "A" },
                 { parentNoteId := lit "A", childNoteId := lit "B" }] }

/-- Cache of the repair scenario after the move: branch A→B deleted,
branches root→C and C→B added. -/
def cache1 : TreeCache :=
  addBranch (addBranch (deleteBranch cache0 (lit "A") (lit "B"))
      { parentNoteId := rootId, childNoteId := lit "C" })
    { parentNoteId := lit "C", childNoteId := lit "B" }

/-- Note `X` of the cycle scenario. -/
def nX : Note := { noteId := lit "X", title := lit "X" }

/-- Note `Y` of the cycle scenario. -/
def nY : Note := { noteId := lit "Y", title := lit "Y" }

/-- A cache containing the non-root cycle X→Y→X (every note in the cycle
has a parent) together with note B whose only parent X lies in the cycle. -/
def cycCache : TreeCache :=
  { notes := [nR, nA, nB, nX, nY],
    branches := [{ parentNoteId := lit "X", childNoteId := lit "Y" },
                 { parentNoteId := lit "Y", childNoteId := lit "X" },
                 { parentNoteId := lit "X", childNoteId := lit "B" }] }

/-- Note `D` of the orphan scenario. -/
def nD : Note := { noteId := lit "D", title := lit "D" }

/-- A cache where the only parent D of note B is an orphan (no parent branches). -/
def orphCache : TreeCache :=
  { notes := [nR, nB, nD],
    branches := [{ parentNoteId := lit "D", childNoteId := lit "B" }] }

/-- A note whose identifier contains a dash. -/
def nAb : Note := { noteId := lit "A-b", title := lit "A-b" }

/-- A cache holding the valid branch root→`A-b` (dashed identifier). -/
def dashCache : TreeCache :=
  { notes := [nR, nAb],
    branches := [{ parentNoteId := rootId, childNoteId := lit "A-b" }] }

/-- Non-termination of `resolveNotePathToSegments` on the input `"A/B"`
over `cycCache`: no amount of fuel makes the call return. -/
def resolutionNeverReturns : Prop :=
  ∀ fuel : Nat, resolveNotePathToSegments cycCache (lit "A/B") fuel = none

/-! Helper lemmas about the cache model and the string operations. -/

theorem getNote_noteId {c : TreeCache} {id : Str} {n : Note}
    (h : getNote c id = some n) : n.noteId = id := by
  simpa using List.find?_some h

theorem getNote_mem {c : TreeCache} {id : Str} {n : Note}
    (h : getNote c id = some n) : n ∈ c.notes :=
  List.mem_of_find?_eq_some h

theorem mem_getParentNotes {c : TreeCache} {n q : Note}
    (h : q ∈ getParentNotes c n) : q ∈ c.notes := by
  unfold getParentNotes at h
  obtain ⟨b, _, hb⟩ := List.mem_filterMap.mp h
  exact getNote_mem hb

theorem getParentNotes_of_root {c : TreeCache}
    (hroot : ∀ b ∈ c.branches, ¬ b.childNoteId = rootId) {n : Note}
    (hn : n.noteId = rootId) : getParentNotes c n = [] := by
  unfold getParentNotes
  rw [hn, List.filter_eq_nil_iff.mpr (fun b hb => by simpa using hroot b hb)]
  rfl

theorem splitChar_ne_nil (sep : Char) (s : Str) : splitChar sep s ≠ [] := by
  cases s with
  | nil => simp [splitChar]
  | cons c rest =>
    simp only [splitChar]
    cases h : splitChar sep rest <;> by_cases hc : c = sep <;> simp [hc]

theorem splitChar_not_mem {sep : Char} : ∀ {l : Str}, sep ∉ l → splitChar sep l = [l]
  | [], _ => rfl
  | c :: rest, h => by
    have hc : ¬ c = sep := fun e => h (e ▸ List.mem_cons_self c rest)
    have hr : sep ∉ rest := fun m => h (List.mem_cons_of_mem _ m)
    simp [splitChar, splitChar_not_mem hr, hc]

theorem splitChar_append_sep {sep : Char} :
    ∀ {l : Str} (s : Str), sep ∉ l →
      splitChar sep (l ++ sep :: s) = l :: splitChar sep s
  | [], s, _ => by
    obtain ⟨r, rs, hr⟩ := List.exists_cons_of_ne_nil (splitChar_ne_nil sep s)
    simp [splitChar, hr]
  | c :: rest, s, h => by
    have hc : ¬ c = sep := fun e => h (e ▸ List.mem_cons_self c rest)
    have hr : sep ∉ rest := fun m => h (List.mem_cons_of_mem _ m)
    simp [splitChar, splitChar_append_sep s hr, hc]

theorem joinChar_cons_cons (sep : Char) (a : Char) (l : Str) (L : List Str) :
    joinChar sep ((a :: l) :: L) = a :: joinChar sep (l :: L) := by
  cases L <;> rfl

theorem joinChar_splitChar (sep : Char) : ∀ s : Str, joinChar sep (splitChar sep s) = s := by
  intro s
  induction s with
  | nil => rfl
  | cons c rest ih =>
    obtain ⟨r, rs, hr⟩ := List.exists_cons_of_ne_nil (splitChar_ne_nil sep rest)
    by_cases hc : c = sep
    · simp only [splitChar, hr, if_pos hc]
      have h2 : joinChar sep ([] :: r :: rs) = sep :: joinChar sep (r :: rs) := rfl
      rw [h2, ← hr, ih, ← hc]
    · simp only [splitChar, hr, if_neg hc]
      rw [joinChar_cons_cons, ← hr, ih]

theorem splitChar_joinChar (sep : Char) :
    ∀ L : List Str, (∀ x ∈ L, sep ∉ x) → L ≠ [] →
      splitChar sep (joinChar sep L) = L
  | [], _, h => absurd rfl h
  | [x], h, _ => by
    simpa [joinChar] using splitChar_not_mem (h x (by simp))
  | x :: y :: L, h, _ => by
    have hx : sep ∉ x := h x (by simp)
    have : joinChar sep (x :: y :: L) = x ++ sep :: joinChar sep (y :: L) := rfl
    rw [this, splitChar_append_sep _ hx,
      splitChar_joinChar sep (y :: L) (fun z hz => h z (by simp [hz])) (by simp)]

/-- Helper: on a set `S` of non-root notes whose first parents stay inside
`S`, the first-parent walk never terminates, with any amount of fuel. -/
theorem someNotePathAux_cycle_none {c : TreeCache} {S : List Note}
    (hroot : ∀ m ∈ S, ¬ m.noteId = rootId)
    (hpar : ∀ m ∈ S, (getParentNotes c m).head? ∈ S.map some) :
    ∀ (fuel : Nat) (n : Note), n ∈ S → ∀ acc : List Str,
      someNotePathAux c n acc fuel = none := by
  intro fuel
  induction fuel with
  | zero => intro n _ acc; rfl
  | succ f ih =>
    intro n hn acc
    obtain ⟨p, hpS, hphead⟩ := List.mem_map.mp (hpar n hn)
    cases hgp : getParentNotes c n with
    | nil => rw [hgp] at hphead; simp at hphead
    | cons q t =>
      rw [hgp] at hphead
      have hq : q = p := by simpa using hphead.symm
      simp only [someNotePathAux, if_neg (hroot n hn), hgp]
      rw [hq]
      exact ih p hpS _

/-! Claim theorems. -/

/-- C2, counterexample: in `cycCache` the note X lies on the non-root cycle
X→Y→X and every note of the cycle has a parent, yet after 10 iterations —
more than the number of distinct notes in the whole cache (5), hence more
than the number of distinct notes visited — `getSomeNotePath` has neither
failed nor returned: there is no visited-set check bounding the walk. -/
theorem getSomeNotePath_cycle_not_bounded :
    nX ∈ cycCache.notes ∧ cycCache.notes.length = 5 ∧
      getSomeNotePath cycCache nX 10 = none ∧
      ¬ getSomeNotePath cycCache nX 10 = some none := by
  refine ⟨by decide, by decide, by decide, by decide⟩

/-- C2, amended: `getSomeNotePath` has no cycle detection at all.  For any
note `n` of a set `S` of non-root notes whose first parents stay inside
`S` (a first-parent cycle), the walk never terminates: with any fuel bound
it is still running, never failing and never producing a path. -/
theorem getSomeNotePath_cycle_diverges (c : TreeCache) (S : List Note) (n : Note)
    (hn : n ∈ S)
    (hroot : ∀ m ∈ S, ¬ m.noteId = rootId)
    (hpar : ∀ m ∈ S, (getParentNotes c m).head? ∈ S.map some) :
    ∀ fuel : Nat, getSomeNotePath c n fuel = none := by
  intro fuel
  unfold getSomeNotePath
  rw [someNotePathAux_cycle_none hroot hpar fuel n hn []]
  rfl

/-- C2, witness for the amended theorem at the concrete cycle cache. -/
theorem getSomeNotePath_cycle_diverges_witness :
    getSomeNotePath cycCache nX 7 = none :=
  getSomeNotePath_cycle_diverges cycCache [nX, nY] nX (by decide) (by decide)
    (by decide) 7

/-- C5: a note whose identifier is not `"root"` and which has no parent
branches at all makes `getSomeNotePath` fail (the source logs and returns
`undefined`) after a single loop iteration, for every remaining fuel. -/
theorem getSomeNotePath_orphan_fails (c : TreeCache) (note : Note) (fuel : Nat)
    (h1 : ¬ note.noteId = rootId)
    (h2 : ∀ b ∈ c.branches, ¬ b.childNoteId = note.noteId) :
    getSomeNotePath c note (fuel + 1) = some none := by
  have hp : getParentNotes c note = [] := by
    unfold getParentNotes
    rw [List.filter_eq_nil_iff.mpr (fun b hb => by simpa using h2 b hb)]
    rfl
  simp [getSomeNotePath, someNotePathAux, h1, hp]

/-- C5, witness: the orphan D of `orphCache`. -/
theorem getSomeNotePath_orphan_fails_witness :
    getSomeNotePath orphCache nD 1 = some none :=
  getSomeNotePath_orphan_fails orphCache nD 0 (by decide) (by decide)

/-- C8: suffix stripping.  `resolvePath("root/A/B-xyz1")` equals
`resolvePath("root/A/B")` over every cache and fuel, and more generally any
suffix placed after a dash is stripped before interpretation and does not
affect the result. -/
theorem resolveNotePath_suffix_stripping :
    (∀ (c : TreeCache) (fuel : Nat),
      resolveNotePath c (lit "root/A/B-xyz1") fuel
        = resolveNotePath c (lit "root/A/B") fuel) ∧
    (∀ (c : TreeCache) (fuel : Nat) (sfx : Str),
      resolveNotePath c (lit "root/A/B" ++ dash :: sfx) fuel
        = resolveNotePath c (lit "root/A/B") fuel) := by
  constructor
  · intro c fuel
    unfold resolveNotePath resolveNotePathToSegments
    rw [show cleanPath (lit "root/A/B-xyz1") = cleanPath (lit "root/A/B") from by decide]
  · intro c fuel sfx
    unfold resolveNotePath resolveNotePathToSegments
    have h1 : cleanPath (lit "root/A/B" ++ dash :: sfx) = lit "root/A/B" := by
      unfold cleanPath
      rw [splitChar_append_sep sfx (by decide), List.headD_cons]
      decide
    rw [h1, show cleanPath (lit "root/A/B") = lit "root/A/B" from by decide]

/-- C9: an `open-note` message is forwarded to the navigation collaborator
with the message note id (it is the first collaborator call made) and the
tree cache is left completely unchanged. -/
theorem handleWsMessage_open_note (electron : Bool) (m : WsMessage) (c : TreeCache)
    (h : m.type = lit "open-note") :
    (handleWsMessage electron m c).1 = c ∧
      (handleWsMessage electron m c).2.head?
        = some (NavAction.activateOrOpenNote m.noteId) := by
  simp [handleWsMessage, h]

/-- C9, witness at a concrete message. -/
theorem handleWsMessage_open_note_witness :
    (handleWsMessage false { type := lit "open-note", noteId := lit "N" } cache0).1
        = cache0 ∧
      (handleWsMessage false { type := lit "open-note", noteId := lit "N" } cache0).2.head?
        = some (NavAction.activateOrOpenNote (lit "N")) :=
  handleWsMessage_open_note false { type := lit "open-note", noteId := lit "N" } cache0 rfl

/-- C10: `getNoteIdAndParentIdFromNotePath` maps `"root"` to
`(noteId = "root", parentNoteId = "none")`; on any other non-empty
single-segment path the parent defaults to `"root"`; and in every case the
returned note id is the last path segment with the tab suffix after a dash
stripped. -/
theorem getNoteIdAndParentId_spec :
    (getNoteIdAndParentIdFromNotePath rootId
        = { noteId := rootId, parentNoteId := lit "none" }) ∧
    (∀ P : Str, ¬ P = [] → ¬ P = rootId → (splitChar slash P).length = 1 →
      (getNoteIdAndParentIdFromNotePath P).parentNoteId = rootId) ∧
    (∀ P : Str, (getNoteIdAndParentIdFromNotePath P).noteId
        = (splitChar dash ((splitChar slash P).getLastD [])).headD []) := by
  refine ⟨by decide, ?_, ?_⟩
  · intro P h1 h2 h3
    unfold getNoteIdAndParentIdFromNotePath
    rw [if_neg h2, if_neg h1]
    simp [h3]
  · intro P
    by_cases h2 : P = rootId
    · subst h2; decide
    · by_cases h1 : P = []
      · subst h1; decide
      · unfold getNoteIdAndParentIdFromNotePath
        rw [if_neg h2, if_neg h1]

/-- C10, witness at concrete paths. -/
theorem getNoteIdAndParentId_spec_witness :
    (getNoteIdAndParentIdFromNotePath (lit "abc")).parentNoteId = rootId ∧
      (getNoteIdAndParentIdFromNotePath (lit "root/A/B-x")).noteId
        = (splitChar dash ((splitChar slash (lit "root/A/B-x")).getLastD [])).headD [] :=
  ⟨getNoteIdAndParentId_spec.2.1 (lit "abc") (by decide) (by decide) (by decide),
    getNoteIdAndParentId_spec.2.2 (lit "root/A/B-x")⟩

/-- C1: repair correctness.  Concretely, starting from branches root→A and
A→B, after deleting A→B and adding root→C and C→B, resolving
`"root/A/B"` yields the segments `[root, C, B]` — ending in C then B, not
A then B.  Generally, whenever the walk finds a child whose parents do not
include the candidate segment, the result is the fallback path through the
first parent spliced in front of the already accepted child-side segments
kept verbatim, and the unprocessed remainder of the input is discarded
unvalidated (the remainder `rest` does not occur in the result). -/
theorem resolve_repair_correct :
    (resolveNotePathToSegments cache1 (lit "root/A/B") 10
        = some (some [rootId, lit "C", lit "B"])) ∧
    (∀ (c : TreeCache) (childId : Str) (child p : Note) (ps : List Note)
        (pid : Str) (rest acc : List Str) (fuel : Nat) (s : Str),
      getNote c childId = some child →
      getParentNotes c child = p :: ps →
      (∀ q ∈ p :: ps, ¬ q.noteId = pid) →
      getSomeNotePath c p fuel = some (some s) →
      resolveLoop c (pid :: rest) (some childId) acc fuel
        = some (some (splitChar slash s ++ acc.reverse))) := by
  constructor
  · decide
  · intro c childId child p ps pid rest acc fuel s h1 h2 h3 h4
    have hany : ((p :: ps).any (fun q => q.noteId = pid)) = false := by
      simp only [List.any_eq_false]
      intro q hq
      simpa using h3 q hq
    simp [resolveLoop, h1, h2, hany, h4, List.reverse_append]

/-- C1, witness for the general repair step at the concrete moved cache. -/
theorem resolve_repair_correct_witness :
    resolveLoop cache1 [lit "A"] (some (lit "B")) [lit "B"] 10
      = some (some [rootId, lit "C", lit "B"]) := by
  have h := resolve_repair_correct.2 cache1 (lit "B") nB nC [] (lit "A") []
    [lit "B"] 10 (lit "root/C") (by decide) (by decide) (by decide) (by decide)
  exact h.trans (by decide)

/-- Helper: on `cycCache` the resolution of `"A/B"` reduces, for every
fuel, to the repair fallback walk from X (the only parent of B). -/
theorem resolveSeg_cyc_step (fuel : Nat) :
    resolveNotePathToSegments cycCache (lit "A/B") fuel
      = match getSomeNotePath cycCache nX fuel with
        | none => none
        | some none => some (some [lit "B"])
        | some (some s) =>
            some (some (([lit "B"] ++ (splitChar slash s).reverse).reverse)) := rfl

/-- C7, counterexample: over a cache with the first-parent cycle X→Y→X,
resolving `"A/B"` (B has the cycle note X as its only parent) never
returns: no fuel bound makes `resolveNotePathToSegments` produce any
result, so resolution of this input does not terminate. -/
theorem resolveNotePath_can_diverge : resolutionNeverReturns := by
  intro fuel
  have hg : getSomeNotePath cycCache nX fuel = none := by
    unfold getSomeNotePath
    rw [someNotePathAux_cycle_none (S := [nX, nY]) (by decide) (by decide)
      fuel nX (by decide) []]
    rfl
  rw [resolveSeg_cyc_step fuel, hg]

/-- C7, amended: an input that is empty, or trims to empty after the tab
suffix is stripped, makes `resolveNotePathToSegments` and
`resolveNotePath` return the failure value (the source returns
`undefined`/`null` without throwing) for every cache and fuel; universal
termination fails only through the unguarded repair fallback walk (see the
counterexample). -/
theorem resolve_empty_input_null (c : TreeCache) (P : Str) (fuel : Nat)
    (h : cleanPath P = []) :
    resolveNotePathToSegments c P fuel = some none ∧
      resolveNotePath c P fuel = some none := by
  refine ⟨?_, ?_⟩ <;>
    simp [resolveNotePath, resolveNotePathToSegments, resolveCleaned, h]

/-- C7, witness for the amended theorem: whitespace followed by a tab
suffix trims to empty. -/
theorem resolve_empty_input_null_witness :
    resolveNotePathToSegments cache0 (lit "  -xyz") 5 = some none ∧
      resolveNotePath cache0 (lit "  -xyz") 5 = some none :=
  resolve_empty_input_null cache0 (lit "  -xyz") 5 (by decide)

/-- Helper: the resolution loop accepts every segment along a chain of
valid existing branch edges, keeping the accumulator and consuming the
whole remaining (reversed) path. -/
theorem resolveLoop_accept (c : TreeCache) :
    ∀ (rest2 : List Str) (x : Str) (acc : List Str) (fuel : Nat),
      List.Chain' (validEdge c) (rest2.reverse ++ [x]) →
      resolveLoop c rest2 (some x) acc fuel = some (some ((acc ++ rest2).reverse)) := by
  intro rest2
  induction rest2 with
  | nil => intro x acc fuel _; simp [resolveLoop]
  | cons pid rest2 ih =>
    intro x acc fuel hch
    rw [List.reverse_cons] at hch
    obtain ⟨h1, _, h3⟩ := List.chain'_append.mp hch
    have hedge : validEdge c pid x := by
      refine h3 pid ?_ x ?_
      · rw [List.getLast?_concat]; rfl
      · rfl
    obtain ⟨⟨nch, hnchmem, hnchid⟩, ⟨pn, hpnmem, hpnid⟩, ⟨b, hbmem, hbp, hbc⟩⟩ := hedge
    have hchild : ∃ child, getNote c x = some child := by
      cases hg : getNote c x with
      | some child => exact ⟨child, rfl⟩
      | none => exact absurd (List.find?_eq_none.mp hg nch hnchmem) (by simp [hnchid])
    obtain ⟨child, hchild⟩ := hchild
    have hchildid : child.noteId = x := getNote_noteId hchild
    have hpq : ∃ q, getNote c pid = some q := by
      cases hg : getNote c pid with
      | some q => exact ⟨q, rfl⟩
      | none => exact absurd (List.find?_eq_none.mp hg pn hpnmem) (by simp [hpnid])
    obtain ⟨q, hq⟩ := hpq
    have hqid : q.noteId = pid := getNote_noteId hq
    have hqmem : q ∈ getParentNotes c child := by
      unfold getParentNotes
      refine List.mem_filterMap.mpr ⟨b, List.mem_filter.mpr ⟨hbmem, ?_⟩, ?_⟩
      · simp [hbc, hchildid]
      · rw [hbp]; exact hq
    cases hgp : getParentNotes c child with
    | nil => rw [hgp] at hqmem; simp at hqmem
    | cons p ps =>
      rw [hgp] at hqmem
      have hany : ((p :: ps).any (fun r => r.noteId = pid)) = true :=
        List.any_eq_true.mpr ⟨q, hqmem, by simp [hqid]⟩
      have hrec := ih pid (acc ++ [pid]) fuel h1
      simp only [resolveLoop, hchild, hgp, hany, if_true]
      rw [hrec, List.append_assoc]
      rfl

/-- C4, counterexample: the claim fails for a path whose note identifier
contains a dash.  In `dashCache` the branch root→`A-b` exists and is
valid, the path `"root/A-b"` begins at root and every consecutive pair is
a valid existing edge, yet `resolvePath` mangles it through suffix
stripping and returns the failure value instead of the path itself. -/
theorem resolveNotePath_idempotent_counterexample :
    validEdge dashCache rootId (lit "A-b") ∧
      splitChar slash (lit "root/A-b") = [rootId, lit "A-b"] ∧
      List.Chain' (validEdge dashCache) [rootId, lit "A-b"] ∧
      resolveNotePath dashCache (lit "root/A-b") 10 = some none ∧
      ¬ resolveNotePath dashCache (lit "root/A-b") 10
          = some (some (lit "root/A-b")) := by
  refine ⟨by decide, by decide, ?_, by decide, by decide⟩
  constructor
  · decide
  · exact List.chain'_singleton _

/-- C4, amended: idempotence holds for every path `P` that the cleaning
step leaves unchanged (no dash, no surrounding whitespace), begins at the
root sentinel, and whose every consecutive (parent, child) pair is a valid
existing branch edge of the cache: `resolvePath(P) = P`. -/
theorem resolveNotePath_idempotent (c : TreeCache) (P : Str) (rest : List Str)
    (fuel : Nat)
    (hclean : cleanPath P = P)
    (hsegs : splitChar slash P = rootId :: rest)
    (hchain : List.Chain' (validEdge c) (rootId :: rest)) :
    resolveNotePath c P fuel = some (some P) := by
  have hPne : ¬ P.length = 0 := by
    intro h0
    rw [List.length_eq_zero.mp h0] at hsegs
    simp [splitChar] at hsegs
    exact absurd hsegs.1.symm (by decide)
  obtain ⟨ph, pt, hpath⟩ : ∃ ph pt, (rootId :: rest).reverse = ph :: pt := by
    cases hrev : (rootId :: rest).reverse with
    | nil => simp at hrev
    | cons a t => exact ⟨a, t, rfl⟩
  have hrevrev : pt.reverse ++ [ph] = rootId :: rest := by
    have h2 := congrArg List.reverse hpath
    simpa using h2.symm
  suffices h : resolveNotePathToSegments c P fuel = some (some (rootId :: rest)) by
    unfold resolveNotePath
    rw [h]
    show some (some (joinChar slash (rootId :: rest))) = some (some P)
    rw [← hsegs, joinChar_splitChar]
  unfold resolveNotePathToSegments
  rw [hclean]
  unfold resolveCleaned
  rw [if_neg hPne, hsegs]
  show resolveLoop c
      (if rootId ∈ (rootId :: rest).reverse then (rootId :: rest).reverse
        else (rootId :: rest).reverse ++ [rootId]) none [] fuel
    = some (some (rootId :: rest))
  rw [if_pos (by simp : rootId ∈ (rootId :: rest).reverse), hpath]
  have hstep : resolveLoop c (ph :: pt) none [] fuel
      = resolveLoop c pt (some ph) [ph] fuel := rfl
  rw [hstep, resolveLoop_accept c pt ph [ph] fuel (by rw [hrevrev]; exact hchain)]
  rw [show ([ph] ++ pt : List Str) = ph :: pt from rfl, ← hpath, List.reverse_reverse]

/-- C4, witness: the unmoved cache accepts `"root/A/B"` unchanged. -/
theorem resolveNotePath_idempotent_witness :
    resolveNotePath cache0 (lit "root/A/B") 10 = some (some (lit "root/A/B")) := by
  have h := resolveNotePath_idempotent cache0 (lit "root/A/B")
    [lit "A", lit "B"] 10 (by decide) (by decide) ?_
  · exact h
  · constructor
    · decide
    · constructor
      · decide
      · exact List.chain'_singleton _

/-- Helper: a successful first-parent walk appends to the accumulator a
block of cached note ids followed by the root sentinel. -/
theorem someNotePathAux_shape {c : TreeCache} :
    ∀ (fuel : Nat) (cur : Note) (acc L : List Str),
      cur ∈ c.notes →
      someNotePathAux c cur acc fuel = some (some L) →
      ∃ mid : List Str, L = acc ++ mid ++ [rootId] ∧
        ∀ m ∈ mid, ∃ n ∈ c.notes, n.noteId = m := by
  intro fuel
  induction fuel with
  | zero => intro cur acc L _ h; simp [someNotePathAux] at h
  | succ f ih =>
    intro cur acc L hcur h
    by_cases hr : cur.noteId = rootId
    · simp only [someNotePathAux, if_pos hr, Option.some.injEq] at h
      exact ⟨[], by simp [← h], by simp⟩
    · simp only [someNotePathAux, if_neg hr] at h
      cases hgp : getParentNotes c cur with
      | nil => rw [hgp] at h; simp at h
      | cons p ps =>
        rw [hgp] at h
        have hpmem : p ∈ c.notes :=
          mem_getParentNotes (by rw [hgp]; exact List.mem_cons_self p ps)
        obtain ⟨mid, hmid, hmem⟩ := ih p (acc ++ [cur.noteId]) L hpmem h
        refine ⟨cur.noteId :: mid, by simpa [List.append_assoc] using hmid, ?_⟩
        intro m hm
        cases List.mem_cons.mp hm with
        | inl he => exact ⟨cur, hcur, he.symm⟩
        | inr he => exact hmem m he

/-- Helper: when no cached non-root note is an orphan, the first-parent
walk never hits the bare-failure exit. -/
theorem someNotePathAux_ne_fail {c : TreeCache}
    (hnoorph : ∀ n ∈ c.notes, ¬ n.noteId = rootId → ¬ getParentNotes c n = []) :
    ∀ (fuel : Nat) (cur : Note) (acc : List Str), cur ∈ c.notes →
      ¬ someNotePathAux c cur acc fuel = some none := by
  intro fuel
  induction fuel with
  | zero => intro cur acc _ h; simp [someNotePathAux] at h
  | succ f ih =>
    intro cur acc hcur h
    by_cases hr : cur.noteId = rootId
    · simp only [someNotePathAux, if_pos hr] at h; simp at h
    · simp only [someNotePathAux, if_neg hr] at h
      cases hgp : getParentNotes c cur with
      | nil => exact hnoorph cur hcur hr hgp
      | cons p ps =>
        rw [hgp] at h
        have hpmem : p ∈ c.notes :=
          mem_getParentNotes (by rw [hgp]; exact List.mem_cons_self p ps)
        exact ih p _ hpmem h

/-- Helper invariant of the resolution walk: over a well-formed cache
(root has no parent branches, no cached orphans, no slash inside note
identifiers), any successful run of the loop from a state whose
accumulator is nonempty, starts with the target and ends with the current
child, and whose unprocessed part still contains root, returns a list that
starts with root and ends with the target. -/
theorem resolveLoop_success_root_first {c : TreeCache}
    (hroot : ∀ b ∈ c.branches, ¬ b.childNoteId = rootId)
    (hnoorph : ∀ n ∈ c.notes, ¬ n.noteId = rootId → ¬ getParentNotes c n = [])
    (hids : ∀ n ∈ c.notes, slash ∉ n.noteId) :
    ∀ (rest : List Str) (x tgt : Str) (acc : List Str) (fuel : Nat) (l : List Str),
      ¬ acc = [] → acc.head? = some tgt → acc.getLast? = some x →
      rootId ∈ x :: rest →
      resolveLoop c rest (some x) acc fuel = some (some l) →
      ¬ l = [] ∧ l.head? = some rootId ∧ l.getLast? = some tgt := by
  intro rest
  induction rest with
  | nil =>
    intro x tgt acc fuel l hacc hhead hlast hmem hres
    have h2 : (some (some acc.reverse) : Option (Option (List Str)))
        = some (some l) := hres
    have hl : l = acc.reverse := by simpa using h2.symm
    have hx : rootId = x := List.mem_singleton.mp hmem
    subst hl
    refine ⟨by simpa using hacc, ?_, ?_⟩
    · rw [List.head?_reverse, hlast, hx]
    · rw [List.getLast?_reverse, hhead]
  | cons pid rest ih =>
    intro x tgt acc fuel l hacc hhead hlast hmem hres
    cases hg : getNote c x with
    | none => simp [resolveLoop, hg] at hres
    | some child =>
      have hchildid : child.noteId = x := getNote_noteId hg
      by_cases hx : x = rootId
      · have hgpnil : getParentNotes c child = [] :=
          getParentNotes_of_root hroot (by rw [hchildid, hx])
        simp [resolveLoop, hg, hgpnil] at hres
      · have hmem2 : rootId ∈ pid :: rest := by
          cases List.mem_cons.mp hmem with
          | inl h => exact absurd h.symm hx
          | inr h => exact h
        cases hgp : getParentNotes c child with
        | nil => simp [resolveLoop, hg, hgp] at hres
        | cons p ps =>
          have hpmem : p ∈ c.notes :=
            mem_getParentNotes (by rw [hgp]; exact List.mem_cons_self p ps)
          simp only [resolveLoop, hg, hgp] at hres
          by_cases hany : ((p :: ps).any (fun q => q.noteId = pid)) = true
          · rw [if_pos hany] at hres
            refine ih pid tgt (acc ++ [pid]) fuel l (by simp) ?_
              (List.getLast?_concat _) hmem2 hres
            cases acc with
            | nil => exact absurd rfl hacc
            | cons a t => simpa using hhead
          · rw [if_neg hany] at hres
            cases hsp : getSomeNotePath c p fuel with
            | none => rw [hsp] at hres; simp at hres
            | some o =>
              cases o with
              | none =>
                have haux : someNotePathAux c p [] fuel = some none := by
                  unfold getSomeNotePath at hsp
                  cases ha : someNotePathAux c p [] fuel with
                  | none => rw [ha] at hsp; simp at hsp
                  | some oo =>
                    cases oo with
                    | none => rfl
                    | some ll => rw [ha] at hsp; simp at hsp
                exact absurd haux (someNotePathAux_ne_fail hnoorph fuel p [] hpmem)
              | some sres =>
                rw [hsp] at hres
                have h2 : (some (some ((acc ++ (splitChar slash sres).reverse).reverse))
                    : Option (Option (List Str))) = some (some l) := hres
                have hl : l = (acc ++ (splitChar slash sres).reverse).reverse := by
                  simpa using h2.symm
                obtain ⟨L, hL, hLs⟩ : ∃ L, someNotePathAux c p [] fuel = some (some L)
                    ∧ sres = joinChar slash L.reverse := by
                  unfold getSomeNotePath at hsp
                  cases ha : someNotePathAux c p [] fuel with
                  | none => rw [ha] at hsp; simp at hsp
                  | some oo =>
                    cases oo with
                    | none => rw [ha] at hsp; simp at hsp
                    | some ll =>
                      rw [ha] at hsp
                      simp at hsp
                      exact ⟨ll, rfl, hsp.symm⟩
                obtain ⟨mid, hmid, hmidmem⟩ := someNotePathAux_shape fuel p [] L hpmem hL
                have hLrev : L.reverse = rootId :: mid.reverse := by
                  rw [hmid]; simp
                have hsplit : splitChar slash sres = rootId :: mid.reverse := by
                  rw [hLs, hLrev]
                  refine splitChar_joinChar slash (rootId :: mid.reverse) ?_ (by simp)
                  intro z hz
                  cases List.mem_cons.mp hz with
                  | inl he => rw [he]; decide
                  | inr he =>
                    obtain ⟨n, hn, hnid⟩ := hmidmem z (List.mem_reverse.mp he)
                    rw [← hnid]
                    exact hids n hn
                have hl2 : l = (rootId :: mid.reverse) ++ acc.reverse := by
                  rw [hl, List.reverse_append, List.reverse_reverse, hsplit]
                refine ⟨by simp [hl2], by simp [hl2], ?_⟩
                rw [hl2]
                have haccrev : acc.reverse.getLast? = some tgt := by
                  rw [List.getLast?_reverse, hhead]
                rw [List.getLast?_append, haccrev]
                rfl

/-- C3, counterexample: over `orphCache` (B has as only parent the orphan
D), resolving `"root/A/B"` succeeds with the single-segment sequence
`[B]`, whose first element is not the root sentinel: when the repair
fallback itself fails, the returned sequence does not start at root. -/
theorem resolve_root_first_counterexample :
    resolveNotePathToSegments orphCache (lit "root/A/B") 10 = some (some [lit "B"]) ∧
      ([lit "B"] : List Str).head? = some (lit "B") ∧
      ¬ (lit "B") = rootId := ⟨by decide, rfl, by decide⟩

/-- Helper invariant of the resolution walk, with no cache assumptions:
any successful run of the loop from a state whose accumulator is nonempty
and starts with the target returns a nonempty list ending with the target
(the accumulator head is pushed first and reversal puts it last, whichever
exit succeeds). -/
theorem resolveLoop_success_last (c : TreeCache) :
    ∀ (rest : List Str) (x tgt : Str) (acc : List Str) (fuel : Nat) (l : List Str),
      ¬ acc = [] → acc.head? = some tgt →
      resolveLoop c rest (some x) acc fuel = some (some l) →
      ¬ l = [] ∧ l.getLast? = some tgt := by
  intro rest
  induction rest with
  | nil =>
    intro x tgt acc fuel l hacc hhead hres
    have h2 : (some (some acc.reverse) : Option (Option (List Str)))
        = some (some l) := hres
    have hl : l = acc.reverse := by simpa using h2.symm
    subst hl
    exact ⟨by simpa using hacc, by rw [List.getLast?_reverse, hhead]⟩
  | cons pid rest ih =>
    intro x tgt acc fuel l hacc hhead hres
    cases hg : getNote c x with
    | none => simp [resolveLoop, hg] at hres
    | some child =>
      cases hgp : getParentNotes c child with
      | nil => simp [resolveLoop, hg, hgp] at hres
      | cons p ps =>
        simp only [resolveLoop, hg, hgp] at hres
        by_cases hany : ((p :: ps).any (fun q => q.noteId = pid)) = true
        · rw [if_pos hany] at hres
          refine ih pid tgt (acc ++ [pid]) fuel l (by simp) ?_ hres
          cases acc with
          | nil => exact absurd rfl hacc
          | cons a t => simpa using hhead
        · rw [if_neg hany] at hres
          cases hsp : getSomeNotePath c p fuel with
          | none => rw [hsp] at hres; simp at hres
          | some o =>
            cases o with
            | none =>
              rw [hsp] at hres
              have h2 : (some (some acc.reverse) : Option (Option (List Str)))
                  = some (some l) := hres
              have hl : l = acc.reverse := by simpa using h2.symm
              subst hl
              exact ⟨by simpa using hacc, by rw [List.getLast?_reverse, hhead]⟩
            | some sres =>
              rw [hsp] at hres
              have h2 : (some (some ((acc ++ (splitChar slash sres).reverse).reverse))
                  : Option (Option (List Str))) = some (some l) := hres
              have hl : l = (acc ++ (splitChar slash sres).reverse).reverse := by
                simpa using h2.symm
              have hl2 : l = (splitChar slash sres) ++ acc.reverse := by
                rw [hl, List.reverse_append, List.reverse_reverse]
              have haccl : acc.reverse.getLast? = some tgt := by
                rw [List.getLast?_reverse, hhead]
              constructor
              · rw [hl2]
                intro he
                exact hacc (by simpa using (List.append_eq_nil.mp he).2)
              · rw [hl2, List.getLast?_append, haccl]
                rfl

/-- C3, amended: for every cache and every raw input on which
`resolveToSegments` succeeds, the returned sequence is nonempty and its
last element is the target note (the last segment of the cleaned input);
and over a well-formed cache — root has no parent branches, no cached
non-root note is an orphan, and note identifiers contain no slash — its
first element is the root sentinel, including runs that splice in a
repair prefix.  (When the repair fallback itself hits an orphan, the run
can succeed with a sequence that does not start at root: see the
counterexample.) -/
theorem resolve_root_first :
    (∀ (c : TreeCache) (P : Str) (fuel : Nat) (l : List Str),
      resolveNotePathToSegments c P fuel = some (some l) →
      ¬ l = [] ∧ l.getLast? = (splitChar slash (cleanPath P)).getLast?) ∧
    (∀ (c : TreeCache) (P : Str) (fuel : Nat) (l : List Str),
      (∀ b ∈ c.branches, ¬ b.childNoteId = rootId) →
      (∀ n ∈ c.notes, ¬ n.noteId = rootId → ¬ getParentNotes c n = []) →
      (∀ n ∈ c.notes, slash ∉ n.noteId) →
      resolveNotePathToSegments c P fuel = some (some l) →
      l.head? = some rootId) := by
  constructor
  · intro c P fuel l hres
    unfold resolveNotePathToSegments resolveCleaned at hres
    by_cases hemp : (cleanPath P).length = 0
    · rw [if_pos hemp] at hres; simp at hres
    · rw [if_neg hemp] at hres
      obtain ⟨ph, pt, hpath⟩ : ∃ ph pt,
          (splitChar slash (cleanPath P)).reverse = ph :: pt := by
        cases hrev : (splitChar slash (cleanPath P)).reverse with
        | nil =>
          exact absurd (List.reverse_eq_nil_iff.mp hrev)
            (splitChar_ne_nil slash (cleanPath P))
        | cons a t => exact ⟨a, t, rfl⟩
      have htgt : (splitChar slash (cleanPath P)).getLast? = some ph := by
        rw [← List.head?_reverse, hpath]; rfl
      by_cases hmem : rootId ∈ (splitChar slash (cleanPath P)).reverse
      · rw [if_pos hmem, hpath] at hres
        have hres2 : resolveLoop c pt (some ph) [ph] fuel = some (some l) := hres
        obtain ⟨h1, h3⟩ := resolveLoop_success_last c pt ph ph [ph] fuel l
          (by simp) rfl hres2
        exact ⟨h1, by rw [h3, htgt]⟩
      · rw [if_neg hmem, hpath] at hres
        have hres2 : resolveLoop c (pt ++ [rootId]) (some ph) [ph] fuel
            = some (some l) := hres
        obtain ⟨h1, h3⟩ := resolveLoop_success_last c (pt ++ [rootId]) ph ph [ph]
          fuel l (by simp) rfl hres2
        exact ⟨h1, by rw [h3, htgt]⟩
  · intro c P fuel l hroot hnoorph hids hres
    unfold resolveNotePathToSegments resolveCleaned at hres
    by_cases hemp : (cleanPath P).length = 0
    · rw [if_pos hemp] at hres; simp at hres
    · rw [if_neg hemp] at hres
      obtain ⟨ph, pt, hpath⟩ : ∃ ph pt,
          (splitChar slash (cleanPath P)).reverse = ph :: pt := by
        cases hrev : (splitChar slash (cleanPath P)).reverse with
        | nil =>
          exact absurd (List.reverse_eq_nil_iff.mp hrev)
            (splitChar_ne_nil slash (cleanPath P))
        | cons a t => exact ⟨a, t, rfl⟩
      by_cases hmem : rootId ∈ (splitChar slash (cleanPath P)).reverse
      · rw [if_pos hmem, hpath] at hres
        have hmem2 : rootId ∈ ph :: pt := by rw [← hpath]; exact hmem
        have hres2 : resolveLoop c pt (some ph) [ph] fuel = some (some l) := hres
        obtain ⟨_, h2, _⟩ := resolveLoop_success_root_first hroot hnoorph hids
          pt ph ph [ph] fuel l (by simp) rfl rfl hmem2 hres2
        exact h2
      · rw [if_neg hmem, hpath] at hres
        have hres2 : resolveLoop c (pt ++ [rootId]) (some ph) [ph] fuel
            = some (some l) := hres
        obtain ⟨_, h2, _⟩ := resolveLoop_success_root_first hroot hnoorph hids
          (pt ++ [rootId]) ph ph [ph] fuel l (by simp) rfl rfl (by simp) hres2
        exact h2

/-- C3, witness for the amended theorem: the unconditional part at the
orphan cache (the run that succeeds as just `[B]` still ends at the
target B), and the root-first part at the well-formed moved cache. -/
theorem resolve_root_first_witness :
    (¬ ([lit "B"] : List Str) = [] ∧
      ([lit "B"] : List Str).getLast?
        = (splitChar slash (cleanPath (lit "root/A/B"))).getLast?) ∧
      ([rootId, lit "C", lit "B"] : List Str).head? = some rootId :=
  ⟨resolve_root_first.1 orphCache (lit "root/A/B") 10 [lit "B"] (by decide),
    resolve_root_first.2 cache1 (lit "root/A/B") 10 [rootId, lit "C", lit "B"]
      (by decide) (by decide) (by decide) (by decide)⟩

end Trilium
